import Mathlib

/-!
Verification of the s3h library (src/lib/s3h.js).

The JavaScript source is shallowly embedded as follows:

* `normalizePath` and `getS3Key` work on JavaScript strings; these are
  embedded as `List Char`, with `startsWith('/')` becoming a test on
  `head?`, `slice(1)` becoming `drop 1`, `endsWith('/')` a test on
  `getLast?` and `slice(0, -1)` becoming `dropLast`.
* `detectAwsCredentials` reads two environment variables; an environment
  variable is embedded as `Option String` (`none` when unset) and the
  JavaScript truthiness test on it holds exactly when it is set to a
  non-empty string.
* `uploadUntilFinished` is an asynchronous polling loop.  Its state is
  the pending `filePaths` array (drained by `pop` from the end), the set
  of dispatched-but-uncompleted `putObject` callbacks (`inFlight`; its
  length is the source's `uploadsInProgress` counter), the list of
  callbacks that have already run (`completed`) and the accumulated
  `failures` mapping.  On the single-threaded event loop, each scheduler
  iteration performs at most one guarded dispatch and then sleeps, during
  which any number of pending `putObject` callbacks may run.  A run is
  therefore an interleaving of `dispatch` and `complete` events, applied
  by `step`; `runSchedule` folds a schedule of such events, so every
  state reachable during a run is `runSchedule` of some schedule.  The
  outcome each callback reports for a given path is fixed by
  `Config.outcome` (the storage client invokes each callback exactly
  once).  The loop exits only when both the pending queue and the
  in-flight set are empty (`finished`); the promise then rejects with the
  failure mapping when it is non-empty (the source calls
  `reject(failures)` and then `resolve()`, and the first settlement
  wins), else resolves.  `batchResult` returns `none` while the loop is
  still running.
-/

namespace S3h

/-- Constant `DEFAULT_MAXIMUM_CONCURRENT_UPLOADS` from the source. -/
def DEFAULT_MAXIMUM_CONCURRENT_UPLOADS : Int := 5

/-- Cap resolution at the top of `uploadUntilFinished`: the value of
`options.maximumConcurrentUploads` when the key is present, else the
default of 5.  The JavaScript number is embedded as `Int` since the
source never validates it. -/
def resolveMaximumConcurrentUploads (optionsValue : Option Int) : Int :=
  match optionsValue with
  | some m => m
  | none => DEFAULT_MAXIMUM_CONCURRENT_UPLOADS

/-- Result of `detectAwsCredentials`: either `new AWS.Credentials({...})`
built from the two environment variables, or
`new AWS.SharedIniFileCredentials()`. -/
inductive Credentials where
  | envCredentials (accessKeyId secretAccessKey : String)
  | sharedIniFileCredentials
deriving DecidableEq

/-- JavaScript truthiness of an environment variable: an unset variable
reads as `undefined` (falsy) and a set one as its string value, which is
truthy exactly when non-empty. -/
def truthyEnv (v : Option String) : Bool :=
  match v with
  | some s => s != ""
  | none => false

/-- Embedding of `detectAwsCredentials` (src/lib/s3h.js:28-37): if both
`AWS_ACCESS_KEY_ID` and `AWS_SECRET_ACCESS_KEY` are truthy, build
`AWS.Credentials` from them, else fall back to
`AWS.SharedIniFileCredentials`. -/
def detectAwsCredentials (awsAccessKeyId awsSecretAccessKey : Option String) : Credentials :=
  if truthyEnv awsAccessKeyId && truthyEnv awsSecretAccessKey then
    Credentials.envCredentials (awsAccessKeyId.getD "") (awsSecretAccessKey.getD "")
  else
    Credentials.sharedIniFileCredentials

/-- The path separator character trimmed by `normalizePath`. -/
def pathSeparator : Char := '/'

/-- Embedding of `normalizePath` (src/lib/s3h.js:176-188): drop one
leading `'/'` if the string starts with one, then drop one trailing `'/'`
if the intermediate result ends with one. -/
def normalizePath (path : List Char) : List Char :=
  let afterLeading := if path.head? = some pathSeparator then path.drop 1 else path
  if afterLeading.getLast? = some pathSeparator then afterLeading.dropLast else afterLeading

/-- Embedding of `getS3Key` (src/lib/s3h.js:166-168): the template
literal concatenating the two normalized parts with one `'/'`. -/
def getS3Key (rootDirectory filePath : List Char) : List Char :=
  normalizePath rootDirectory ++ [pathSeparator] ++ normalizePath filePath

/-- Fixed data of one `uploadUntilFinished` run: the resolved concurrency cap
and, for each file path, the error value (if any) that its `putObject`
callback reports.  The storage client invokes each callback exactly once, so
the outcome is a function of the path. -/
structure Config (α ε : Type) where
  maximumConcurrentUploads : Int
  outcome : α → Option ε

/-- Mutable state of `uploadUntilFinished` (src/lib/s3h.js:123-156):
the pending `filePaths` array, the dispatched-but-uncompleted callbacks
(`inFlight`; its length is the `uploadsInProgress` counter), the callbacks
that have already run (`completed`), and the accumulated `failures`
mapping in insertion order. -/
structure BatchState (α ε : Type) where
  filePaths : List α
  inFlight : List α
  completed : List α
  failures : List (α × ε)
deriving DecidableEq

/-- State at the top of `uploadUntilFinished`: the full item list pending,
nothing in flight, no failures. -/
def initState {α ε : Type} (filePaths : List α) : BatchState α ε :=
  ⟨filePaths, [], [], []⟩

/-- One observable scheduler event: a guarded dispatch attempt at the top of
a loop iteration, or the completion callback of the in-flight transfer at a
given index running during the sleep. -/
inductive Event where
  | dispatch
  | complete (idx : Nat)

/-- Effect of one `putObject` callback on the failure mapping
(src/lib/s3h.js:139-142): record `failures[filePath] = error` when an error
was reported, nothing otherwise. -/
def failureEntry {α ε : Type} (cfg : Config α ε) (filePath : α) : List (α × ε) :=
  match cfg.outcome filePath with
  | some e => [(filePath, e)]
  | none => []

/-- Transition of one event.  A `dispatch` fires only when
`uploadsInProgress < maximumConcurrentUploads && filePaths.length > 0`
(src/lib/s3h.js:128-129); it then pops the last pending path and launches
its transfer (src/lib/s3h.js:130-139).  A `complete idx` runs the callback
of the idx-th in-flight transfer: it records a failure entry when an error
is reported and decrements the in-flight count (src/lib/s3h.js:139-145).
Events whose guard does not hold leave the state unchanged. -/
def step {α ε : Type} (cfg : Config α ε) (s : BatchState α ε) : Event → BatchState α ε
  | Event.dispatch =>
    match s.filePaths.getLast? with
    | some filePath =>
      if (s.inFlight.length : Int) < cfg.maximumConcurrentUploads then
        ⟨s.filePaths.dropLast, filePath :: s.inFlight, s.completed, s.failures⟩
      else s
    | none => s
  | Event.complete idx =>
    match s.inFlight.get? idx with
    | some filePath =>
      ⟨s.filePaths, s.inFlight.eraseIdx idx, s.completed ++ [filePath],
        s.failures ++ failureEntry cfg filePath⟩
    | none => s

/-- Folds a schedule of events over the state. -/
def runSchedule {α ε : Type} (cfg : Config α ε) (s : BatchState α ε) :
    List Event → BatchState α ε
  | [] => s
  | e :: es => runSchedule cfg (step cfg s e) es

/-- Negation of the loop guard `filePaths.length > 0 || uploadsInProgress > 0`
(src/lib/s3h.js:127): the loop exits exactly here. -/
def finished {α ε : Type} (s : BatchState α ε) : Bool :=
  s.filePaths.isEmpty && s.inFlight.isEmpty

/-- Settlement of the promise (src/lib/s3h.js:151-155): `none` while the
loop is still running; once `finished`, the code calls `reject(failures)`
when the mapping is non-empty and then `resolve()` — the first settlement
wins, so the promise rejects with the failure mapping exactly when it is
non-empty and resolves otherwise. -/
def batchResult {α ε : Type} (s : BatchState α ε) : Option (Except (List (α × ε)) Unit) :=
  if finished s then
    some (if s.failures.isEmpty then Except.ok () else Except.error s.failures)
  else none

/-- Every item of the batch is at any moment pending, in flight, or
completed; this list collects them. -/
def BatchState.accountedItems {α ε : Type} (s : BatchState α ε) : List α :=
  s.filePaths ++ s.inFlight ++ s.completed

/-- Invariant tying the failure mapping to the completed transfers: the
recorded keys are exactly the completed paths whose callback reported an
error, in completion order, and every recorded entry carries the error its
callback reported. -/
def failuresMatchCompleted {α ε : Type} (cfg : Config α ε) (s : BatchState α ε) : Prop :=
  s.failures.map Prod.fst = s.completed.filter (fun i => (cfg.outcome i).isSome) ∧
  ∀ p ∈ s.failures, cfg.outcome p.1 = some p.2

lemma truthyEnv_eq_true_iff (v : Option String) :
    truthyEnv v = true ↔ ∃ s, v = some s ∧ s ≠ "" := by
  cases v with
  | none => simp [truthyEnv]
  | some s => simp [truthyEnv]

lemma normalizePath_eq_self (q : List Char) (h1 : q.head? ≠ some pathSeparator)
    (h2 : q.getLast? ≠ some pathSeparator) : normalizePath q = q := by
  simp only [normalizePath, if_neg h1, if_neg h2]

lemma step_dispatch_pos {α ε : Type} (cfg : Config α ε) (s : BatchState α ε) (filePath : α)
    (hl : s.filePaths.getLast? = some filePath)
    (hc : (s.inFlight.length : Int) < cfg.maximumConcurrentUploads) :
    step cfg s Event.dispatch =
      ⟨s.filePaths.dropLast, filePath :: s.inFlight, s.completed, s.failures⟩ := by
  simp only [step, hl]
  exact if_pos hc

lemma step_dispatch_cap {α ε : Type} (cfg : Config α ε) (s : BatchState α ε) (filePath : α)
    (hl : s.filePaths.getLast? = some filePath)
    (hc : ¬ (s.inFlight.length : Int) < cfg.maximumConcurrentUploads) :
    step cfg s Event.dispatch = s := by
  simp only [step, hl]
  exact if_neg hc

lemma step_dispatch_empty {α ε : Type} (cfg : Config α ε) (s : BatchState α ε)
    (hl : s.filePaths.getLast? = none) :
    step cfg s Event.dispatch = s := by
  simp only [step, hl]

lemma step_complete_some {α ε : Type} (cfg : Config α ε) (s : BatchState α ε) (idx : Nat)
    (filePath : α) (hg : s.inFlight.get? idx = some filePath) :
    step cfg s (Event.complete idx) =
      ⟨s.filePaths, s.inFlight.eraseIdx idx, s.completed ++ [filePath],
        s.failures ++ failureEntry cfg filePath⟩ := by
  simp only [step, hg]

lemma step_complete_none {α ε : Type} (cfg : Config α ε) (s : BatchState α ε) (idx : Nat)
    (hg : s.inFlight.get? idx = none) :
    step cfg s (Event.complete idx) = s := by
  simp only [step, hg]

lemma step_inFlight_le {α ε : Type} (cfg : Config α ε) (s : BatchState α ε) (e : Event)
    (h : (s.inFlight.length : Int) ≤ cfg.maximumConcurrentUploads) :
    ((step cfg s e).inFlight.length : Int) ≤ cfg.maximumConcurrentUploads := by
  cases e with
  | dispatch =>
    cases hl : s.filePaths.getLast? with
    | none => rw [step_dispatch_empty cfg s hl]; exact h
    | some filePath =>
      by_cases hc : (s.inFlight.length : Int) < cfg.maximumConcurrentUploads
      · rw [step_dispatch_pos cfg s filePath hl hc]
        simp only [List.length_cons]
        push_cast
        omega
      · rw [step_dispatch_cap cfg s filePath hl hc]; exact h
  | complete idx =>
    cases hg : s.inFlight.get? idx with
    | none => rw [step_complete_none cfg s idx hg]; exact h
    | some filePath =>
      rw [step_complete_some cfg s idx filePath hg]
      have h2 : (s.inFlight.eraseIdx idx).length ≤ s.inFlight.length :=
        List.length_eraseIdx_le _ _
      have h3 : ((s.inFlight.eraseIdx idx).length : Int) ≤ (s.inFlight.length : Int) := by
        exact_mod_cast h2
      exact le_trans h3 h

lemma runSchedule_inFlight_le {α ε : Type} (cfg : Config α ε) (sch : List Event)
    (s : BatchState α ε)
    (h : (s.inFlight.length : Int) ≤ cfg.maximumConcurrentUploads) :
    ((runSchedule cfg s sch).inFlight.length : Int) ≤ cfg.maximumConcurrentUploads := by
  induction sch generalizing s with
  | nil => exact h
  | cons e es ih => exact ih (step cfg s e) (step_inFlight_le cfg s e h)

lemma get?_perm_cons_eraseIdx {α : Type} (l : List α) :
    ∀ (i : Nat) (a : α), l.get? i = some a → List.Perm l (a :: l.eraseIdx i) := by
  induction l with
  | nil => intro i a h; simp at h
  | cons x xs ih =>
    intro i a h
    cases i with
    | zero =>
      simp only [List.get?] at h
      injection h with h
      subst h
      simp [List.eraseIdx]
    | succ i =>
      simp only [List.get?] at h
      have hp := ih i a h
      have h1 : List.Perm (x :: xs) (x :: a :: xs.eraseIdx i) := hp.cons x
      have h2 : List.Perm (x :: a :: xs.eraseIdx i) (a :: x :: xs.eraseIdx i) :=
        List.Perm.swap a x _
      exact h1.trans h2

lemma step_accountedItems_perm {α ε : Type} (cfg : Config α ε) (s : BatchState α ε)
    (e : Event) :
    List.Perm (step cfg s e).accountedItems s.accountedItems := by
  cases e with
  | dispatch =>
    cases hl : s.filePaths.getLast? with
    | none => rw [step_dispatch_empty cfg s hl]
    | some filePath =>
      by_cases hc : (s.inFlight.length : Int) < cfg.maximumConcurrentUploads
      · rw [step_dispatch_pos cfg s filePath hl hc]
        unfold BatchState.accountedItems
        have heq : s.filePaths.dropLast ++ (filePath :: s.inFlight) ++ s.completed
            = s.filePaths ++ s.inFlight ++ s.completed := by
          conv_rhs => rw [← List.dropLast_append_getLast? filePath hl]
          simp [List.append_assoc]
        rw [heq]
      · rw [step_dispatch_cap cfg s filePath hl hc]
  | complete idx =>
    cases hg : s.inFlight.get? idx with
    | none => rw [step_complete_none cfg s idx hg]
    | some filePath =>
      rw [step_complete_some cfg s idx filePath hg]
      unfold BatchState.accountedItems
      have hin : List.Perm s.inFlight (filePath :: s.inFlight.eraseIdx idx) :=
        get?_perm_cons_eraseIdx s.inFlight idx filePath hg
      have h : List.Perm (s.inFlight.eraseIdx idx ++ (s.completed ++ [filePath]))
          (s.inFlight ++ s.completed) := by
        have h1 : List.Perm (s.completed ++ [filePath]) (filePath :: s.completed) :=
          List.perm_append_singleton filePath s.completed
        have h2 : List.Perm (s.inFlight.eraseIdx idx ++ (s.completed ++ [filePath]))
            (s.inFlight.eraseIdx idx ++ (filePath :: s.completed)) :=
          List.Perm.append_left _ h1
        have h3 : List.Perm (s.inFlight.eraseIdx idx ++ (filePath :: s.completed))
            (filePath :: (s.inFlight.eraseIdx idx ++ s.completed)) := List.perm_middle
        have h4 : List.Perm (s.inFlight ++ s.completed)
            ((filePath :: s.inFlight.eraseIdx idx) ++ s.completed) :=
          hin.append_right s.completed
        exact (h2.trans h3).trans h4.symm
      have h5 : List.Perm
          (s.filePaths ++ (s.inFlight.eraseIdx idx ++ (s.completed ++ [filePath])))
          (s.filePaths ++ (s.inFlight ++ s.completed)) := List.Perm.append_left _ h
      simp only [List.append_assoc]
      exact h5

lemma runSchedule_accountedItems_perm {α ε : Type} (cfg : Config α ε) (sch : List Event)
    (s : BatchState α ε) :
    List.Perm (runSchedule cfg s sch).accountedItems s.accountedItems := by
  induction sch generalizing s with
  | nil => exact List.Perm.refl _
  | cons e es ih => exact (ih (step cfg s e)).trans (step_accountedItems_perm cfg s e)

lemma step_failuresMatchCompleted {α ε : Type} (cfg : Config α ε) (s : BatchState α ε)
    (e : Event) (h : failuresMatchCompleted cfg s) :
    failuresMatchCompleted cfg (step cfg s e) := by
  obtain ⟨hmap, hsound⟩ := h
  cases e with
  | dispatch =>
    cases hl : s.filePaths.getLast? with
    | none => rw [step_dispatch_empty cfg s hl]; exact ⟨hmap, hsound⟩
    | some filePath =>
      by_cases hc : (s.inFlight.length : Int) < cfg.maximumConcurrentUploads
      · rw [step_dispatch_pos cfg s filePath hl hc]; exact ⟨hmap, hsound⟩
      · rw [step_dispatch_cap cfg s filePath hl hc]; exact ⟨hmap, hsound⟩
  | complete idx =>
    cases hg : s.inFlight.get? idx with
    | none => rw [step_complete_none cfg s idx hg]; exact ⟨hmap, hsound⟩
    | some filePath =>
      rw [step_complete_some cfg s idx filePath hg]
      constructor
      · show (s.failures ++ failureEntry cfg filePath).map Prod.fst
          = (s.completed ++ [filePath]).filter (fun i => (cfg.outcome i).isSome)
        rw [List.map_append, List.filter_append, hmap]
        congr 1
        cases ho : cfg.outcome filePath with
        | some e0 => simp [failureEntry, ho]
        | none => simp [failureEntry, ho]
      · intro p hp
        rcases List.mem_append.mp hp with hp | hp
        · exact hsound p hp
        · cases ho : cfg.outcome filePath with
          | some e0 =>
            simp only [failureEntry, ho, List.mem_singleton] at hp
            subst hp
            exact ho
          | none => simp [failureEntry, ho] at hp

lemma runSchedule_failuresMatchCompleted {α ε : Type} (cfg : Config α ε) (sch : List Event)
    (s : BatchState α ε) (h : failuresMatchCompleted cfg s) :
    failuresMatchCompleted cfg (runSchedule cfg s sch) := by
  induction sch generalizing s with
  | nil => exact h
  | cons e es ih => exact ih (step cfg s e) (step_failuresMatchCompleted cfg s e h)

lemma batchResult_elim {α ε : Type} (s : BatchState α ε) (r : Except (List (α × ε)) Unit)
    (h : batchResult s = some r) :
    s.filePaths = [] ∧ s.inFlight = [] ∧
    (if s.failures.isEmpty then Except.ok () else Except.error s.failures) = r := by
  rw [batchResult] at h
  split at h
  · next hfin =>
    simp only [finished, Bool.and_eq_true, List.isEmpty_iff] at hfin
    exact ⟨hfin.1, hfin.2, Option.some.inj h⟩
  · exact absurd h (by simp)

lemma step_initState_cap_nonpos {α ε : Type} (cfg : Config α ε) (items : List α)
    (hcap : cfg.maximumConcurrentUploads ≤ 0) (e : Event) :
    step cfg (initState items : BatchState α ε) e = initState items := by
  cases e with
  | dispatch =>
    cases hl : (initState items : BatchState α ε).filePaths.getLast? with
    | none => exact step_dispatch_empty cfg _ hl
    | some filePath =>
      apply step_dispatch_cap cfg _ filePath hl
      simp only [initState, List.length_nil, Int.natCast_zero]
      omega
  | complete idx => exact step_complete_none cfg _ idx rfl

/-- C1: for every item list and concurrency cap of at least 1, at no point
during a run of `uploadUntilFinished` does the number of in-flight transfers
exceed the cap: the counter is incremented only by a dispatch that fires
strictly below the cap with pending items remaining, and is decremented
exactly once per completion, so after any event schedule the in-flight count
is at most the cap. -/
theorem uploadUntilFinished_respects_cap {α ε : Type} (cfg : Config α ε) (items : List α)
    (hcap : 1 ≤ cfg.maximumConcurrentUploads) (sch : List Event) :
    ((runSchedule cfg (initState items) sch).inFlight.length : Int)
      ≤ cfg.maximumConcurrentUploads :=
  runSchedule_inFlight_le cfg sch (initState items) (by simp only [initState]; simp; omega)

/-- Witness for C1: three dispatch attempts against cap 2 leave at most 2
transfers in flight. -/
theorem uploadUntilFinished_respects_cap_witness :
    ((runSchedule (⟨2, fun _ => (none : Option Unit)⟩ : Config Nat Unit) (initState [1, 2, 3])
        [Event.dispatch, Event.dispatch, Event.dispatch]).inFlight.length : Int) ≤ 2 :=
  uploadUntilFinished_respects_cap _ [1, 2, 3] (by decide) _

/-- C2: `uploadUntilFinished` settles (resolves or rejects) only once the
pending queue is empty and the in-flight count is zero; at that point the
completed transfers are a permutation of the input list — every item reached
exactly one terminal outcome — and the number of successes plus the number
of recorded failures equals the input length, so the caller never observes a
partial result. -/
theorem uploadUntilFinished_terminal_accounting {α ε : Type} (cfg : Config α ε)
    (items : List α) (sch : List Event) (r : Except (List (α × ε)) Unit)
    (h : batchResult (runSchedule cfg (initState items) sch) = some r) :
    (runSchedule cfg (initState items) sch).filePaths = [] ∧
    (runSchedule cfg (initState items) sch).inFlight = [] ∧
    List.Perm (runSchedule cfg (initState items) sch).completed items ∧
    ((runSchedule cfg (initState items) sch).completed.filter
        (fun i => (cfg.outcome i).isNone)).length +
      (runSchedule cfg (initState items) sch).failures.length = items.length := by
  obtain ⟨hfp, hifl, hr⟩ := batchResult_elim _ r h
  have hca : List.Perm (runSchedule cfg (initState items) sch).accountedItems items := by
    have hinit : (initState items : BatchState α ε).accountedItems = items := by
      simp [initState, BatchState.accountedItems]
    have h1 := runSchedule_accountedItems_perm cfg sch (initState items)
    rw [hinit] at h1
    exact h1
  have hcomp : List.Perm (runSchedule cfg (initState items) sch).completed items := by
    rw [BatchState.accountedItems, hfp, hifl] at hca
    simpa using hca
  have hfmc : failuresMatchCompleted cfg (runSchedule cfg (initState items) sch) :=
    runSchedule_failuresMatchCompleted cfg sch (initState items) (by
      constructor
      · simp [initState]
      · intro p hp
        simp [initState] at hp)
  refine ⟨hfp, hifl, hcomp, ?_⟩
  have hlen : (runSchedule cfg (initState items) sch).failures.length
      = ((runSchedule cfg (initState items) sch).completed.filter
          (fun i => (cfg.outcome i).isSome)).length := by
    rw [← hfmc.1, List.length_map]
  have hsplit := List.length_eq_length_filter_add
    (l := (runSchedule cfg (initState items) sch).completed)
    (fun i => (cfg.outcome i).isSome)
  have hfun : (fun i => !(cfg.outcome i).isSome) = (fun i => (cfg.outcome i).isNone) := by
    funext i
    cases cfg.outcome i <;> rfl
  rw [hfun] at hsplit
  have hcl : (runSchedule cfg (initState items) sch).completed.length = items.length :=
    hcomp.length_eq
  omega

/-- Witness for C2: a run of two items to completion ends drained, with the
completed list a permutation of the input and 2 successes + 0 failures. -/
theorem uploadUntilFinished_terminal_accounting_witness :
    (runSchedule (⟨5, fun _ => (none : Option Unit)⟩ : Config Nat Unit) (initState [4, 7])
        [Event.dispatch, Event.dispatch, Event.complete 0, Event.complete 0]).filePaths = [] ∧
    (runSchedule (⟨5, fun _ => (none : Option Unit)⟩ : Config Nat Unit) (initState [4, 7])
        [Event.dispatch, Event.dispatch, Event.complete 0, Event.complete 0]).inFlight = [] ∧
    List.Perm (runSchedule (⟨5, fun _ => (none : Option Unit)⟩ : Config Nat Unit)
        (initState [4, 7])
        [Event.dispatch, Event.dispatch, Event.complete 0, Event.complete 0]).completed
      [4, 7] ∧
    ((runSchedule (⟨5, fun _ => (none : Option Unit)⟩ : Config Nat Unit) (initState [4, 7])
        [Event.dispatch, Event.dispatch, Event.complete 0, Event.complete 0]).completed.filter
          (fun i =>
            ((⟨5, fun _ => (none : Option Unit)⟩ : Config Nat Unit).outcome i).isNone)).length +
      (runSchedule (⟨5, fun _ => (none : Option Unit)⟩ : Config Nat Unit) (initState [4, 7])
        [Event.dispatch, Event.dispatch, Event.complete 0, Event.complete 0]).failures.length =
      ([4, 7] : List Nat).length :=
  uploadUntilFinished_terminal_accounting _ [4, 7] _ (Except.ok ()) rfl

/-- C3: once `uploadUntilFinished` settles, it rejects exactly when at least
one transfer reported an error; the rejection value contains exactly the
paths whose callback reported an error, each mapped to the reported error,
with every succeeding path absent; when every transfer succeeds it resolves
as success (empty failure set). -/
theorem uploadUntilFinished_failure_semantics {α ε : Type} (cfg : Config α ε)
    (items : List α) (sch : List Event) (r : Except (List (α × ε)) Unit)
    (h : batchResult (runSchedule cfg (initState items) sch) = some r) :
    (r = Except.ok () ↔ ∀ i ∈ items, cfg.outcome i = none) ∧
    ((∃ f, r = Except.error f) ↔ ∃ i ∈ items, cfg.outcome i ≠ none) ∧
    (∀ f, r = Except.error f → ∀ i e, ((i, e) ∈ f ↔ i ∈ items ∧ cfg.outcome i = some e)) := by
  obtain ⟨hfp, hifl, hr⟩ := batchResult_elim _ r h
  have hca : List.Perm (runSchedule cfg (initState items) sch).accountedItems items := by
    have hinit : (initState items : BatchState α ε).accountedItems = items := by
      simp [initState, BatchState.accountedItems]
    have h1 := runSchedule_accountedItems_perm cfg sch (initState items)
    rw [hinit] at h1
    exact h1
  have hcomp : List.Perm (runSchedule cfg (initState items) sch).completed items := by
    rw [BatchState.accountedItems, hfp, hifl] at hca
    simpa using hca
  obtain ⟨hmap, hsound⟩ :=
    runSchedule_failuresMatchCompleted cfg sch (initState items) (by
      constructor
      · simp [initState]
      · intro p hp
        simp [initState] at hp)
  set s := runSchedule cfg (initState items) sch with hs
  have hempty : s.failures = [] ↔ ∀ i ∈ items, cfg.outcome i = none := by
    constructor
    · intro hf i hi
      by_contra hne
      have hic : i ∈ s.completed := hcomp.mem_iff.mpr hi
      have hifilter : i ∈ s.completed.filter (fun j => (cfg.outcome j).isSome) :=
        List.mem_filter.mpr ⟨hic, by
          cases hoc : cfg.outcome i with
          | none => exact absurd hoc hne
          | some e0 => rfl⟩
      rw [← hmap, hf] at hifilter
      simp at hifilter
    · intro hall
      have hnil : s.completed.filter (fun j => (cfg.outcome j).isSome) = [] :=
        List.filter_eq_nil_iff.mpr (fun a ha => by
          have := hall a (hcomp.mem_iff.mp ha)
          simp [this])
      exact List.map_eq_nil_iff.mp (hmap.trans hnil)
  by_cases hfe : s.failures = []
  · have hrok : r = Except.ok () := by
      rw [← hr, hfe]
      rfl
    refine ⟨iff_of_true hrok (hempty.mp hfe), ?_, ?_⟩
    · apply iff_of_false
      · rintro ⟨f, hf⟩
        rw [hrok] at hf
        exact Except.noConfusion hf
      · rintro ⟨i, hi, hne⟩
        exact hne (hempty.mp hfe i hi)
    · intro f hf
      rw [hrok] at hf
      exact Except.noConfusion hf
  · have hrerr : r = Except.error s.failures := by
      rw [← hr, if_neg (by simpa [List.isEmpty_iff] using hfe)]
    have hwitness : ∃ i ∈ items, cfg.outcome i ≠ none := by
      cases hfl : s.failures with
      | nil => exact absurd hfl hfe
      | cons p rest =>
        have hp : p ∈ s.failures := by
          rw [hfl]
          exact List.mem_cons_self p rest
        have ho := hsound p hp
        have hp1 : p.1 ∈ s.failures.map Prod.fst := List.mem_map_of_mem Prod.fst hp
        rw [hmap] at hp1
        have hpc : p.1 ∈ s.completed := (List.mem_filter.mp hp1).1
        exact ⟨p.1, hcomp.mem_iff.mp hpc, by simp [ho]⟩
    refine ⟨?_, iff_of_true ⟨s.failures, hrerr⟩ hwitness, ?_⟩
    · apply iff_of_false
      · intro hok
        rw [hrerr] at hok
        exact Except.noConfusion hok
      · intro hall
        exact hfe (hempty.mpr hall)
    · intro f hf i e
      have hfeq : f = s.failures := by
        rw [hrerr] at hf
        exact (Except.error.inj hf).symm
      subst hfeq
      constructor
      · intro hmem
        have ho := hsound (i, e) hmem
        have hp1 : i ∈ s.failures.map Prod.fst := List.mem_map_of_mem Prod.fst hmem
        rw [hmap] at hp1
        have hpc : i ∈ s.completed := (List.mem_filter.mp hp1).1
        exact ⟨hcomp.mem_iff.mp hpc, ho⟩
      · rintro ⟨hi, hoe⟩
        have hic : i ∈ s.completed := hcomp.mem_iff.mpr hi
        have hifilter : i ∈ s.completed.filter (fun j => (cfg.outcome j).isSome) :=
          List.mem_filter.mpr ⟨hic, by simp [hoe]⟩
        rw [← hmap] at hifilter
        obtain ⟨p, hp, hpi⟩ := List.mem_map.mp hifilter
        have ho := hsound p hp
        rw [hpi] at ho
        have hpe : p.2 = e := Option.some.inj (ho.symm.trans hoe)
        have hpeq : p = (i, e) := Prod.ext hpi hpe
        rw [← hpeq]
        exact hp

/-- Witness for C3: a single-item run whose transfer reports an error ends
with that pair in the rejection mapping exactly when the item was in the
batch and its callback reported that error. -/
theorem uploadUntilFinished_failure_semantics_witness :
    ((7 : Nat), "boom") ∈ [((7 : Nat), "boom")] ↔
      (7 : Nat) ∈ [(7 : Nat)] ∧ (some "boom" : Option String) = some "boom" :=
  (uploadUntilFinished_failure_semantics (⟨5, fun _ => some "boom"⟩ : Config Nat String)
      [7] [Event.dispatch, Event.complete 0] (Except.error [(7, "boom")]) rfl).2.2
    [(7, "boom")] rfl 7 "boom"

/-- C4 counterexample: with cap 0 and one pending item, the code does not
fail with an InvalidConfiguration error (the source has no such check):
after a full scheduler iteration the promise is still unsettled — it has
neither resolved nor rejected — and indeed nothing was dispatched or
completed. -/
theorem uploadUntilFinished_invalid_configuration_counterexample :
    batchResult (runSchedule (⟨0, fun _ => (none : Option Unit)⟩ : Config Nat Unit)
        (initState [1]) [Event.dispatch]) = none ∧
    (runSchedule (⟨0, fun _ => (none : Option Unit)⟩ : Config Nat Unit)
        (initState [1]) [Event.dispatch]).completed = [] ∧
    (runSchedule (⟨0, fun _ => (none : Option Unit)⟩ : Config Nat Unit)
        (initState [1]) [Event.dispatch]).inFlight = [] :=
  ⟨rfl, rfl, rfl⟩

/-- C4 (amended): if the configured cap is 0 or negative, no item is ever
dispatched and the transfer operation is never invoked — the state never
changes under any schedule — but no InvalidConfiguration error is raised:
with a non-empty item list the loop guard stays true forever, so
`uploadUntilFinished` never resolves or rejects. -/
theorem uploadUntilFinished_cap_nonpositive_amended {α ε : Type} (cfg : Config α ε)
    (items : List α) (hcap : cfg.maximumConcurrentUploads ≤ 0) (sch : List Event) :
    runSchedule cfg (initState items) sch = (initState items : BatchState α ε) ∧
    (items ≠ [] → batchResult (runSchedule cfg (initState items) sch) = none) := by
  have hrun : ∀ sch, runSchedule cfg (initState items : BatchState α ε) sch
      = initState items := by
    intro sch
    induction sch with
    | nil => rfl
    | cons e es ih =>
      show runSchedule cfg (step cfg (initState items) e) es = initState items
      rw [step_initState_cap_nonpos cfg items hcap e]
      exact ih
  refine ⟨hrun sch, fun hne => ?_⟩
  rw [hrun sch]
  have hnf : ¬ finished (initState items : BatchState α ε) = true := by
    simp only [finished, initState, Bool.and_eq_true, List.isEmpty_iff]
    intro hc
    exact hne hc.1
  rw [batchResult, if_neg hnf]

/-- Witness for C4 (amended): with cap -3 and one item, a dispatch followed
by a completion attempt leaves the initial state untouched and the batch
unsettled. -/
theorem uploadUntilFinished_cap_nonpositive_amended_witness :
    runSchedule (⟨-3, fun _ => (none : Option Unit)⟩ : Config Nat Unit) (initState [2])
        [Event.dispatch, Event.complete 0] = initState [2] ∧
    ([2] ≠ ([] : List Nat) → batchResult (runSchedule
        (⟨-3, fun _ => (none : Option Unit)⟩ : Config Nat Unit) (initState [2])
        [Event.dispatch, Event.complete 0]) = none) :=
  uploadUntilFinished_cap_nonpositive_amended _ [2] (by decide) _

/-- C5: whenever capacity is available and items are pending, the dispatched
item is the last element of the remaining input list — `filePaths.pop()` is
a stack pop, so dispatch order is last-in-first-out relative to the input
list, not insertion order. -/
theorem uploadUntilFinished_dispatch_lifo {α ε : Type} (cfg : Config α ε)
    (s : BatchState α ε) (filePath : α)
    (hlast : s.filePaths.getLast? = some filePath)
    (hcap : (s.inFlight.length : Int) < cfg.maximumConcurrentUploads) :
    (step cfg s Event.dispatch).filePaths = s.filePaths.dropLast ∧
    (step cfg s Event.dispatch).inFlight = filePath :: s.inFlight := by
  rw [step_dispatch_pos cfg s filePath hlast hcap]
  exact ⟨rfl, rfl⟩

/-- Witness for C5: dispatching from pending list `[1, 2]` launches `2`, the
last element, and leaves `[1]` pending. -/
theorem uploadUntilFinished_dispatch_lifo_witness :
    (step (⟨5, fun _ => (none : Option Unit)⟩ : Config Nat Unit)
        (⟨[1, 2], [], [], []⟩ : BatchState Nat Unit) Event.dispatch).filePaths = [1] ∧
    (step (⟨5, fun _ => (none : Option Unit)⟩ : Config Nat Unit)
        (⟨[1, 2], [], [], []⟩ : BatchState Nat Unit) Event.dispatch).inFlight = [2] :=
  uploadUntilFinished_dispatch_lifo _ _ 2 rfl (by decide)

/-- C6: on an empty item list `uploadUntilFinished` resolves as immediate
success: under every schedule the state stays initial — so `putObject` is
never invoked, nothing is ever in flight or completed — and the batch result
is already a success with an empty failure set. -/
theorem uploadUntilFinished_empty_items {α ε : Type} (cfg : Config α ε) (sch : List Event) :
    runSchedule cfg (initState [] : BatchState α ε) sch = initState [] ∧
    batchResult (runSchedule cfg (initState [] : BatchState α ε) sch) =
      some (Except.ok ()) := by
  have hstep : ∀ e, step cfg (initState [] : BatchState α ε) e = initState [] := by
    intro e
    cases e with
    | dispatch => exact step_dispatch_empty cfg _ rfl
    | complete idx => exact step_complete_none cfg _ idx rfl
  have hrun : ∀ sch, runSchedule cfg (initState [] : BatchState α ε) sch = initState [] := by
    intro sch
    induction sch with
    | nil => rfl
    | cons e es ih =>
      show runSchedule cfg (step cfg (initState []) e) es = initState []
      rw [hstep e]
      exact ih
  refine ⟨hrun sch, ?_⟩
  rw [hrun sch]
  rfl

/-- C7 counterexample: on the spec's own example input, `getS3Key` keeps the
leading `./` of the local path (normalization trims only `'/'`), so the
result is not the claimed `uploads/dir/local/dir/file.txt`. -/
theorem getS3Key_example_counterexample :
    getS3Key ("uploads/dir").toList ("./local/dir/file.txt").toList ≠
      ("uploads/dir/local/dir/file.txt").toList := by decide

/-- C7 (amended): `getS3Key('uploads/dir', './local/dir/file.txt')` returns
`'uploads/dir/./local/dir/file.txt'`; the key is the normalized prefix and
the normalized local path joined by a single separator, and normalization
leaves the `./` prefix intact. -/
theorem getS3Key_example_amended :
    getS3Key ("uploads/dir").toList ("./local/dir/file.txt").toList =
      ("uploads/dir/./local/dir/file.txt").toList ∧
    ∀ rootDirectory filePath : List Char,
      getS3Key rootDirectory filePath =
        normalizePath rootDirectory ++ [pathSeparator] ++ normalizePath filePath :=
  ⟨by decide, fun _ _ => rfl⟩

/-- C8: `normalizePath` removes exactly one leading separator when the input
starts with one and exactly one trailing separator when the lead-stripped
result ends with one, and changes nothing else: the input is recovered by
re-attaching the removed separators, so internal separators are untouched
and repeated leading or trailing separators beyond the first are kept. -/
theorem normalizePath_strips_exactly_one (p : List Char) :
    ∃ a b, p = a ++ normalizePath p ++ b ∧
      (a = [] ∨ a = [pathSeparator]) ∧ (b = [] ∨ b = [pathSeparator]) ∧
      (a = [pathSeparator] ↔ p.head? = some pathSeparator) ∧
      (b = [pathSeparator] ↔
        (if p.head? = some pathSeparator then p.drop 1 else p).getLast?
          = some pathSeparator) := by
  by_cases h1 : p.head? = some pathSeparator
  · have hp : pathSeparator :: p.tail = p := List.cons_head?_tail h1
    by_cases h2 : (p.drop 1).getLast? = some pathSeparator
    · refine ⟨[pathSeparator], [pathSeparator], ?_, Or.inr rfl, Or.inr rfl,
        iff_of_true rfl h1, ?_⟩
      · have hq : (p.drop 1).dropLast ++ [pathSeparator] = p.drop 1 :=
          List.dropLast_append_getLast? _ h2
        have hnorm : normalizePath p = (p.drop 1).dropLast := by
          simp only [normalizePath, if_pos h1, if_pos h2]
        rw [hnorm]
        calc p = pathSeparator :: p.tail := hp.symm
          _ = pathSeparator :: p.drop 1 := by rw [List.drop_one]
          _ = pathSeparator :: ((p.drop 1).dropLast ++ [pathSeparator]) := by rw [hq]
          _ = [pathSeparator] ++ (p.drop 1).dropLast ++ [pathSeparator] := by simp
      · rw [if_pos h1]
        exact iff_of_true rfl h2
    · refine ⟨[pathSeparator], [], ?_, Or.inr rfl, Or.inl rfl,
        iff_of_true rfl h1, ?_⟩
      · have hnorm : normalizePath p = p.drop 1 := by
          simp only [normalizePath, if_pos h1, if_neg h2]
        rw [hnorm]
        calc p = pathSeparator :: p.tail := hp.symm
          _ = pathSeparator :: p.drop 1 := by rw [List.drop_one]
          _ = [pathSeparator] ++ p.drop 1 ++ [] := by simp
      · rw [if_pos h1]
        exact iff_of_false (by decide) h2
  · by_cases h2 : p.getLast? = some pathSeparator
    · refine ⟨[], [pathSeparator], ?_, Or.inl rfl, Or.inr rfl,
        iff_of_false (by decide) h1, ?_⟩
      · have hnorm : normalizePath p = p.dropLast := by
          simp only [normalizePath, if_neg h1, if_pos h2]
        rw [hnorm]
        have hq : p.dropLast ++ [pathSeparator] = p :=
          List.dropLast_append_getLast? _ h2
        simp [hq]
      · rw [if_neg h1]
        exact iff_of_true rfl h2
    · refine ⟨[], [], ?_, Or.inl rfl, Or.inl rfl,
        iff_of_false (by decide) h1, ?_⟩
      · have hnorm : normalizePath p = p := by
          simp only [normalizePath, if_neg h1, if_neg h2]
        rw [hnorm]
        simp
      · rw [if_neg h1]
        exact iff_of_false (by decide) h2

/-- C9 counterexample: `normalizePath` is not idempotent: on `"//a"` the
first pass strips one leading separator giving `"/a"`, and a second pass
strips another, giving `"a"`. -/
theorem normalizePath_not_idempotent :
    ¬ (normalizePath (normalizePath ("//a").toList) = normalizePath ("//a").toList) := by
  decide

/-- C9 (amended): `normalizePath('/a/b/') = 'a/b'` and
`normalizePath('a/b') = 'a/b'` hold, and normalizing twice yields the same
result whenever the first pass produces a string that neither starts nor
ends with a separator; but idempotence fails in general (e.g. on `"//a"`),
because one strip per end can leave further separators exposed. -/
theorem normalizePath_idempotent_amended :
    normalizePath ("/a/b/").toList = ("a/b").toList ∧
    normalizePath ("a/b").toList = ("a/b").toList ∧
    ∀ p : List Char, (normalizePath p).head? ≠ some pathSeparator →
      (normalizePath p).getLast? ≠ some pathSeparator →
      normalizePath (normalizePath p) = normalizePath p := by
  refine ⟨by decide, by decide, ?_⟩
  intro p h1 h2
  exact normalizePath_eq_self _ h1 h2

/-- Witness for C9 (amended): the input `"b"` normalizes to itself, and a
second normalization changes nothing. -/
theorem normalizePath_idempotent_amended_witness :
    normalizePath (normalizePath ("b").toList) = normalizePath ("b").toList :=
  normalizePath_idempotent_amended.2.2 ("b").toList (by decide) (by decide)

/-- C10: detectAwsCredentials returns environment-variable credentials built
from AWS_ACCESS_KEY_ID and AWS_SECRET_ACCESS_KEY exactly when both
environment variables are set to non-empty values; otherwise, including when
exactly one of the two is set, it returns the SharedIniFileCredentials
fallback. -/
theorem detectAwsCredentials_spec (awsAccessKeyId awsSecretAccessKey : Option String) :
    ((∃ a, awsAccessKeyId = some a ∧ a ≠ "") ∧ (∃ b, awsSecretAccessKey = some b ∧ b ≠ "") →
      detectAwsCredentials awsAccessKeyId awsSecretAccessKey =
        Credentials.envCredentials (awsAccessKeyId.getD "") (awsSecretAccessKey.getD "")) ∧
    (¬ ((∃ a, awsAccessKeyId = some a ∧ a ≠ "") ∧ (∃ b, awsSecretAccessKey = some b ∧ b ≠ "")) →
      detectAwsCredentials awsAccessKeyId awsSecretAccessKey =
        Credentials.sharedIniFileCredentials) := by
  constructor
  · intro h
    have h1 : truthyEnv awsAccessKeyId = true := (truthyEnv_eq_true_iff _).mpr h.1
    have h2 : truthyEnv awsSecretAccessKey = true := (truthyEnv_eq_true_iff _).mpr h.2
    simp [detectAwsCredentials, h1, h2]
  · intro h
    have hne : ¬ (truthyEnv awsAccessKeyId = true ∧ truthyEnv awsSecretAccessKey = true) := by
      intro hc
      exact h ⟨(truthyEnv_eq_true_iff _).mp hc.1, (truthyEnv_eq_true_iff _).mp hc.2⟩
    rcases Decidable.not_and_iff_or_not.mp hne with hf | hf
    · simp [detectAwsCredentials, Bool.eq_false_iff.mpr hf]
    · simp [detectAwsCredentials, Bool.eq_false_iff.mpr hf]

/-- Witness for C10: with both variables set non-empty the environment
credentials are returned; with only one set the shared-ini fallback is
returned. -/
theorem detectAwsCredentials_spec_witness :
    detectAwsCredentials (some "k") (some "s") = Credentials.envCredentials "k" "s" ∧
    detectAwsCredentials (some "k") none = Credentials.sharedIniFileCredentials := by
  constructor
  · exact (detectAwsCredentials_spec (some "k") (some "s")).1
      ⟨⟨"k", rfl, by decide⟩, ⟨"s", rfl, by decide⟩⟩
  · exact (detectAwsCredentials_spec (some "k") none).2
      (fun hc => by rcases hc.2 with ⟨b, hb, _⟩; exact Option.noConfusion hb)

end S3h
